import Mathlib

/-!
# Key-Value Form Encoding (OpenID Authentication 2.0) — verification

Shallow embedding of the `keyvalue` Go package: a `Form` maps string keys
to string values; `Validate` checks the character-level rules of the
Key-Value Form Encoding; `String` serializes `key:value\n` lines;
`SignedForm` wraps a `Form` with an ordered field list and serializes the
signable subset with the fixed `openid.` prefix.

Go strings are byte sequences (possibly invalid UTF-8), so they are
modelled as `List Nat` of byte values. The UTF-8 helpers
(`utf8.ValidString`, `utf8.DecodeRuneInString`,
`utf8.DecodeLastRuneInString`, `unicode.IsSpace`) are embedded faithfully
from the Go standard library semantics the code relies on.
-/

/-- A Go string: a sequence of bytes (each `< 256`). -/
abbrev GoStr := List Nat

/-- Is `b` a UTF-8 continuation byte (`b & 0xC0 == 0x80`)? -/
def isCont (b : Nat) : Bool := 0x80 ≤ b && b < 0xC0

/-- Go `utf8.RuneStart`: true when `b` is not a continuation byte. -/
def runeStart (b : Nat) : Bool := !(0x80 ≤ b && b < 0xC0)

/-- Lower bound for the second byte of a multi-byte sequence headed by `b0`
(Go's acceptance ranges: `0xE0 → 0xA0`, `0xF0 → 0x90`, else `0x80`). -/
def secondLo (b0 : Nat) : Nat :=
  if b0 = 0xE0 then 0xA0 else if b0 = 0xF0 then 0x90 else 0x80

/-- Upper bound (inclusive) for the second byte of a multi-byte sequence
headed by `b0` (`0xED → 0x9F` excludes surrogates, `0xF4 → 0x8F` caps at
U+10FFFF, else `0xBF`). -/
def secondHi (b0 : Nat) : Nat :=
  if b0 = 0xED then 0x9F else if b0 = 0xF4 then 0x8F else 0xBF

/-- Acceptance test for the second byte of a multi-byte sequence. -/
def acceptSecond (b0 b1 : Nat) : Bool := secondLo b0 ≤ b1 && b1 ≤ secondHi b0

/-- Go `utf8.ValidString` on a byte sequence: well-formed UTF-8
(shortest form, no surrogates, max U+10FFFF). -/
def validUtf8 : List Nat → Bool
  | [] => true
  | b0 :: rest =>
    if b0 < 0x80 then validUtf8 rest
    else if b0 < 0xC2 then false
    else if b0 < 0xE0 then
      match rest with
      | b1 :: rest1 => isCont b1 && validUtf8 rest1
      | [] => false
    else if b0 < 0xF0 then
      match rest with
      | b1 :: b2 :: rest2 => acceptSecond b0 b1 && isCont b2 && validUtf8 rest2
      | _ => false
    else if b0 < 0xF5 then
      match rest with
      | b1 :: b2 :: b3 :: rest3 =>
          acceptSecond b0 b1 && isCont b2 && isCont b3 && validUtf8 rest3
      | _ => false
    else false

/-- The Unicode replacement character U+FFFD, Go's `utf8.RuneError`. -/
def runeError : Nat := 0xFFFD

/-- Go `utf8.DecodeRuneInString`: decode the first rune of a byte sequence,
returning the rune value and the number of bytes consumed.  The empty
string yields `(RuneError, 0)`; a malformed sequence yields
`(RuneError, 1)`. -/
def decodeRuneSize : List Nat → Nat × Nat
  | [] => (runeError, 0)
  | b0 :: rest =>
    if b0 < 0x80 then (b0, 1)
    else if b0 < 0xC2 then (runeError, 1)
    else if b0 < 0xE0 then
      match rest with
      | b1 :: _ =>
          if isCont b1 then ((b0 - 0xC0) * 64 + (b1 - 0x80), 2)
          else (runeError, 1)
      | [] => (runeError, 1)
    else if b0 < 0xF0 then
      match rest with
      | b1 :: b2 :: _ =>
          if acceptSecond b0 b1 && isCont b2 then
            ((b0 - 0xE0) * 4096 + (b1 - 0x80) * 64 + (b2 - 0x80), 3)
          else (runeError, 1)
      | _ => (runeError, 1)
    else if b0 < 0xF5 then
      match rest with
      | b1 :: b2 :: b3 :: _ =>
          if acceptSecond b0 b1 && isCont b2 && isCont b3 then
            ((b0 - 0xF0) * 262144 + (b1 - 0x80) * 4096 + (b2 - 0x80) * 64
              + (b3 - 0x80), 4)
          else (runeError, 1)
      | _ => (runeError, 1)
    else (runeError, 1)

/-- The rune decoded from the front of a byte sequence. -/
def decodeFirstRune (s : List Nat) : Nat := (decodeRuneSize s).1

/-- Backward scan of `utf8.DecodeLastRuneInString`: the largest index `i`
with `lim ≤ i ≤ start` holding a rune-start byte; when none exists the Go
code leaves `start = lim - 1` (clamped at 0). -/
def findStart (s : List Nat) (lim : Nat) : Nat → Nat
  | 0 => if lim = 0 then 0 else lim - 1
  | i + 1 =>
    if i + 1 < lim then lim - 1
    else if runeStart (s.getD (i + 1) 0) then i + 1
    else findStart s lim i

/-- Go `utf8.DecodeLastRuneInString`: decode the last rune of a byte
sequence (rune value only).  The empty string yields `RuneError`; a byte
sequence not ending in a complete valid rune yields `RuneError`. -/
def decodeLastRune (s : List Nat) : Nat :=
  match s.getLast? with
  | none => runeError
  | some b =>
    if b < 0x80 then b
    else
      let e := s.length
      let lim := e - 4
      let start := findStart s lim (e - 2)
      let rn := decodeRuneSize (s.drop start)
      if start + rn.2 = e then rn.1 else runeError

/-- Go `unicode.IsSpace` on a rune value: the Latin-1 space set plus the
Unicode `White_Space` table. -/
def isSpace (r : Nat) : Bool :=
  r == 9 || r == 10 || r == 11 || r == 12 || r == 13 || r == 32 ||
  r == 0x85 || r == 0xA0 || r == 0x1680 ||
  (0x2000 ≤ r && r ≤ 0x200A) || r == 0x2028 || r == 0x2029 ||
  r == 0x202F || r == 0x205F || r == 0x3000

/-- UTF-8 encoding of one Unicode scalar value (for writing concrete Go
strings from Lean string literals). -/
def encChar (c : Char) : List Nat :=
  let n := c.toNat
  if n < 0x80 then [n]
  else if n < 0x800 then [0xC0 + n / 64, 0x80 + n % 64]
  else if n < 0x10000 then
    [0xE0 + n / 4096, 0x80 + (n / 64) % 64, 0x80 + n % 64]
  else
    [0xF0 + n / 262144, 0x80 + (n / 4096) % 64, 0x80 + (n / 64) % 64,
     0x80 + n % 64]

/-- UTF-8 bytes of a Lean string literal, as a Go string. -/
def enc (s : String) : GoStr := (s.data.map encChar).flatten

/-- The entries of a Go `map[string]string`, as an association list
(a real map has pairwise-distinct keys). -/
abbrev Entries := List (GoStr × GoStr)

/-- Go map read `v, ok := m[k]`. -/
def lookupEntries : Entries → GoStr → Option GoStr
  | [], _ => none
  | (k, v) :: rest, key => if k = key then some v else lookupEntries rest key

/-- Go map write `m[k] = v`: replace the existing entry or append one. -/
def setEntries : Entries → GoStr → GoStr → Entries
  | [], key, val => [(key, val)]
  | (k, v) :: rest, key, val =>
    if k = key then (k, val) :: rest else (k, v) :: setEntries rest key val

/-- Go `delete(m, k)`: drop the entry for `key` when present. -/
def eraseEntries : Entries → GoStr → Entries
  | [], _ => []
  | (k, v) :: rest, key =>
    if k = key then rest else (k, v) :: eraseEntries rest key

/-- Type `Form` maps string keys to string values; `none` is Go's nil map. -/
abbrev Form := Option Entries

/-- The (key, value) pairs a Go `range` loop sees: none for a nil map. -/
def Form.entries : Form → Entries
  | none => []
  | some l => l

/-- Outcome of a Go statement that can panic at runtime. -/
inductive GoResult (α : Type) where
  | ok (a : α)
  | panic
deriving DecidableEq, Repr

/-- Method `Form.Get`: the value for `key`, or `""` when the form is nil, the key
is absent, or the stored value is empty. -/
def Form.Get (f : Form) (key : GoStr) : GoStr :=
  match f with
  | none => []
  | some l =>
    match lookupEntries l key with
    | none => []
    | some v => if v.length = 0 then [] else v

/-- Method `Form.Set`: `f[key] = value`.  On a nil map, Go panics
("assignment to entry in nil map"). -/
def Form.Set (f : Form) (key value : GoStr) : GoResult Form :=
  match f with
  | none => GoResult.panic
  | some l => GoResult.ok (some (setEntries l key value))

/-- Method `Form.Del`: `delete(f, key)`; a no-op on a nil map or an absent key. -/
def Form.Del (f : Form) (key : GoStr) : Form :=
  match f with
  | none => none
  | some l => some (eraseEntries l key)

/-- The validation errors `Form.Validate` can produce (the Go code returns
`fmt.Errorf` values; only which check fired matters here). -/
inductive Err where
  | emptyValue (k : GoStr)
  | invalidKeyUtf8
  | invalidValueUtf8
  | keyNewlineOrColon (k : GoStr)
  | wsKeyEnd (k : GoStr)
  | wsKeyStart (k : GoStr)
  | wsValEnd (v : GoStr)
  | wsValStart (v : GoStr)
deriving DecidableEq, Repr

/-- The per-pair body of the `Validate` loop, checks in source order:
empty value, invalid UTF-8 key, invalid UTF-8 value, newline or colon in
the key, whitespace rune at either end of key or value. -/
def validatePair (k v : GoStr) : Option Err :=
  if v.length = 0 then some (Err.emptyValue k)
  else if !validUtf8 k then some Err.invalidKeyUtf8
  else if !validUtf8 v then some Err.invalidValueUtf8
  else if 10 ∈ k ∨ 58 ∈ k then some (Err.keyNewlineOrColon k)
  else if isSpace (decodeLastRune k) then some (Err.wsKeyEnd k)
  else if isSpace (decodeFirstRune k) then some (Err.wsKeyStart k)
  else if isSpace (decodeLastRune v) then some (Err.wsValEnd v)
  else if isSpace (decodeFirstRune v) then some (Err.wsValStart v)
  else none

/-- The `Validate` loop over the map's entries: first error wins. -/
def validateEntries : Entries → Option Err
  | [] => none
  | (k, v) :: rest =>
    match validatePair k v with
    | some e => some e
    | none => validateEntries rest

/-- Method `Form.Validate`: `none` means success (Go `nil` error). -/
def Form.Validate (f : Form) : Option Err :=
  match f with
  | none => none
  | some l => validateEntries l

/-- One serialized line: `key` + `:` + `value` + `\n` (colon is byte 58,
newline byte 10). -/
def kvLine (p : GoStr × GoStr) : GoStr := p.1 ++ 58 :: (p.2 ++ [10])

/-- Method `Form.String`: empty output for a nil or empty form, otherwise one
`key:value\n` line per entry (entry order stands in for Go's unspecified
map iteration order). -/
def Form.String (f : Form) : GoStr :=
  match f with
  | none => []
  | some l => if l.length = 0 then [] else (l.map kvLine).flatten

/-- The fixed OpenID key namespace (the Go constant is a keyword here). -/
def pfx : GoStr := enc "openid."

/-- A `Form` plus the ordered list of field names (without prefix) that the
signature covers. -/
structure SignedForm where
  form : Form
  Fields : List GoStr

/-- Sum of the byte lengths of the field names (the first pass of
`SignedFields`). -/
def sumLen : List GoStr → Nat
  | [] => 0
  | k :: rest => k.length + sumLen rest

/-- The write loop of `SignedFields`: append each name, then a comma
whenever the buffer is still shorter than the precomputed total `n`. -/
def signedFieldsLoop (n : Nat) (buf : GoStr) : List GoStr → GoStr
  | [] => buf
  | k :: rest =>
    let buf1 := buf ++ k
    let buf2 := if buf1.length < n then buf1 ++ [44] else buf1
    signedFieldsLoop n buf2 rest

/-- Method `SignedForm.SignedFields`: comma-separated list of the signed field
names, in list order. -/
def SignedForm.SignedFields (s : SignedForm) : GoStr :=
  if s.Fields.length = 0 then []
  else signedFieldsLoop (sumLen s.Fields + (s.Fields.length - 1)) [] s.Fields

/-- The first pass of `SignedString`: every listed field must be present
with a non-empty value, otherwise the whole operation returns `""`. -/
def checkFields (l : Entries) : List GoStr → Bool
  | [] => true
  | k :: rest =>
    match lookupEntries l k with
    | none => false
    | some v => if v.length = 0 then false else checkFields l rest

/-- Method `SignedForm.SignedString`: the signature base string — for each listed
field in order, `openid.` + name + `:` + value + `\n`; empty when the form
is nil or empty or any listed field is absent or empty. -/
def SignedForm.SignedString (s : SignedForm) : GoStr :=
  match s.form with
  | none => []
  | some l =>
    if l.length = 0 then []
    else if checkFields l s.Fields then
      (s.Fields.map (fun k => pfx ++ k ++ 58 :: (Form.Get (some l) k ++ [10]))).flatten
    else []


/-! ## The duplicate `Message` type

A second source file defines `Message map[string]string` with its own
`Get`, `Set`, `Del`, `Validate` and `String` methods whose bodies repeat
the `Form` ones line for line.  They are embedded here separately,
from that file, so that the claimed behavioural equivalence is a theorem
about two independent definitions. -/

/-- Type `Message` maps a string key to a string value; `none` is a nil map. -/
abbrev Message := Option Entries

/-- Method `Message.Get`: value for `key`, or `""` when nil/absent/empty. -/
def Message.Get (m : Message) (key : GoStr) : GoStr :=
  match m with
  | none => []
  | some l =>
    match lookupEntries l key with
    | none => []
    | some v => if v.length = 0 then [] else v

/-- Method `Message.Set`: `m[key] = value`; panics on a nil map. -/
def Message.Set (m : Message) (key value : GoStr) : GoResult Message :=
  match m with
  | none => GoResult.panic
  | some l => GoResult.ok (some (setEntries l key value))

/-- Method `Message.Del`: `delete(m, key)`. -/
def Message.Del (m : Message) (key : GoStr) : Message :=
  match m with
  | none => none
  | some l => some (eraseEntries l key)

/-- The per-pair body of `Message.Validate`, checks in source order. -/
def messageValidatePair (k v : GoStr) : Option Err :=
  if v.length = 0 then some (Err.emptyValue k)
  else if !validUtf8 k then some Err.invalidKeyUtf8
  else if !validUtf8 v then some Err.invalidValueUtf8
  else if 10 ∈ k ∨ 58 ∈ k then some (Err.keyNewlineOrColon k)
  else if isSpace (decodeLastRune k) then some (Err.wsKeyEnd k)
  else if isSpace (decodeFirstRune k) then some (Err.wsKeyStart k)
  else if isSpace (decodeLastRune v) then some (Err.wsValEnd v)
  else if isSpace (decodeFirstRune v) then some (Err.wsValStart v)
  else none

/-- The `Message.Validate` loop over the entries: first error wins. -/
def messageValidateEntries : Entries → Option Err
  | [] => none
  | (k, v) :: rest =>
    match messageValidatePair k v with
    | some e => some e
    | none => messageValidateEntries rest

/-- Method `Message.Validate`: `none` means success. -/
def Message.Validate (m : Message) : Option Err :=
  match m with
  | none => none
  | some l => messageValidateEntries l

/-- Method `Message.String`: `""` for a nil or empty map, else one
`key:value\n` line per entry. -/
def Message.String (m : Message) : GoStr :=
  match m with
  | none => []
  | some l =>
    if l.length = 0 then []
    else (l.map (fun p => p.1 ++ 58 :: (p.2 ++ [10]))).flatten

/-! ## Spec-side definitions

Declarative forms of the properties claimed of the code, written from the
spec's wording, to be compared with the embedded operations. -/

/-- A pair breaks one of the validation rules of the spec: empty value,
invalid UTF-8 key or value, newline or colon in the key, or a whitespace
rune at either end of the key or the value. -/
def pairViolation (k v : GoStr) : Prop :=
  v = [] ∨ validUtf8 k = false ∨ validUtf8 v = false ∨
  10 ∈ k ∨ 58 ∈ k ∨
  isSpace (decodeFirstRune k) = true ∨ isSpace (decodeLastRune k) = true ∨
  isSpace (decodeFirstRune v) = true ∨ isSpace (decodeLastRune v) = true

instance (k v : GoStr) : Decidable (pairViolation k v) := by
  unfold pairViolation; infer_instance

/-- Spec `SignedFieldList`: the names joined with a single comma between
consecutive names, no leading or trailing separator. -/
def joinComma : List GoStr → GoStr
  | [] => []
  | [k] => k
  | k :: k2 :: rest => k ++ 44 :: joinComma (k2 :: rest)

/-! ## Helper lemmas -/

/-- The loop body `validatePair` succeeds exactly when every rule holds. -/
theorem validatePair_eq_none_iff (k v : GoStr) :
    validatePair k v = none ↔
      (v ≠ [] ∧ validUtf8 k = true ∧ validUtf8 v = true ∧
       10 ∉ k ∧ 58 ∉ k ∧
       isSpace (decodeLastRune k) = false ∧
       isSpace (decodeFirstRune k) = false ∧
       isSpace (decodeLastRune v) = false ∧
       isSpace (decodeFirstRune v) = false) := by
  unfold validatePair
  split_ifs with h1 h2 h3 h4 h5 h6 h7 h8 <;>
    simp_all [List.length_eq_zero, not_or] <;> tauto

/-- A pair passes the loop body exactly when it commits no violation. -/
theorem validatePair_eq_none_iff_not_violation (k v : GoStr) :
    validatePair k v = none ↔ ¬ pairViolation k v := by
  rw [validatePair_eq_none_iff]
  simp only [pairViolation, not_or]
  constructor <;> intro h <;>
    simp_all [Bool.not_eq_true, Bool.not_eq_false]

/-- The first-error-wins loop succeeds exactly when every pair passes. -/
theorem validateEntries_eq_none_iff (l : Entries) :
    validateEntries l = none ↔ ∀ p ∈ l, validatePair p.1 p.2 = none := by
  induction l with
  | nil => simp [validateEntries]
  | cons p rest ih =>
    obtain ⟨k, v⟩ := p
    simp only [validateEntries]
    cases h : validatePair k v <;> simp_all

/-- Method `Form.Get` is the map lookup with default `""` (the stored-empty and
absent cases collapse). -/
theorem Form.Get_eq_getD (l : Entries) (key : GoStr) :
    Form.Get (some l) key = (lookupEntries l key).getD [] := by
  cases h : lookupEntries l key with
  | none => simp [Form.Get, h]
  | some v => by_cases hv : v = [] <;> simp [Form.Get, h, hv]

/-- A key outside the entry list has no lookup result. -/
theorem lookupEntries_eq_none_of_not_mem (l : Entries) (key : GoStr)
    (h : key ∉ l.map Prod.fst) : lookupEntries l key = none := by
  induction l with
  | nil => rfl
  | cons p rest ih =>
    obtain ⟨k, v⟩ := p
    simp only [List.map_cons, List.mem_cons, not_or] at h
    have hk : ¬(k = key) := fun hk => h.1 hk.symm
    simp [lookupEntries, hk, ih h.2]

/-- After `m[k] = v`, looking up `k` yields `v`. -/
theorem lookupEntries_setEntries_self (l : Entries) (key val : GoStr) :
    lookupEntries (setEntries l key val) key = some val := by
  induction l with
  | nil => simp [setEntries, lookupEntries]
  | cons p rest ih =>
    obtain ⟨k, v⟩ := p
    by_cases hk : k = key <;> simp [setEntries, lookupEntries, hk, ih]

/-- After `delete(m, k)` on a real map (distinct keys), `k` is gone. -/
theorem lookupEntries_eraseEntries_self (l : Entries) (key : GoStr)
    (hnd : (l.map Prod.fst).Nodup) :
    lookupEntries (eraseEntries l key) key = none := by
  induction l with
  | nil => rfl
  | cons p rest ih =>
    obtain ⟨k, v⟩ := p
    simp only [List.map_cons, List.nodup_cons] at hnd
    by_cases hk : k = key
    · subst hk
      simp only [eraseEntries, if_pos rfl]
      exact lookupEntries_eq_none_of_not_mem rest k hnd.1
    · simp only [eraseEntries, if_neg hk, lookupEntries, if_neg hk]
      exact ih hnd.2

/-- Deleting an absent key leaves the entries unchanged. -/
theorem eraseEntries_of_lookup_none (l : Entries) (key : GoStr)
    (h : lookupEntries l key = none) : eraseEntries l key = l := by
  induction l with
  | nil => rfl
  | cons p rest ih =>
    obtain ⟨k, v⟩ := p
    by_cases hk : k = key
    · simp [lookupEntries, hk] at h
    · simp only [lookupEntries, if_neg hk] at h
      simp [eraseEntries, hk, ih h]

/-- The first pass of `SignedString` succeeds exactly when every listed
field is present with a non-empty value. -/
theorem checkFields_eq_true_iff (l : Entries) (fields : List GoStr) :
    checkFields l fields = true ↔
      ∀ k ∈ fields,
        lookupEntries l k ≠ none ∧ lookupEntries l k ≠ some [] := by
  induction fields with
  | nil => simp [checkFields]
  | cons k rest ih =>
    simp only [checkFields]
    cases h : lookupEntries l k with
    | none => simp [h]
    | some v =>
      by_cases hv : v = []
      · subst hv; simp [h]
      · simp only [if_neg (by simpa [List.length_eq_zero] using hv)]
        simp_all [List.length_eq_zero]

/-- One step of the comma-placement loop. -/
theorem signedFieldsLoop_cons (n : Nat) (buf k : GoStr) (rest : List GoStr) :
    signedFieldsLoop n buf (k :: rest)
      = signedFieldsLoop n
          (if (buf ++ k).length < n then buf ++ k ++ [44] else buf ++ k)
          rest := rfl

/-- The comma-placement loop of `SignedFields` produces exactly the
comma-join, for any buffer already written, whenever the target length `n`
is the one the first pass computed for the remaining names. -/
theorem signedFieldsLoop_eq_joinComma (l : List GoStr) :
    ∀ buf : GoStr, l ≠ [] →
      signedFieldsLoop (buf.length + sumLen l + (l.length - 1)) buf l
        = buf ++ joinComma l := by
  induction l with
  | nil => intro buf h; exact absurd rfl h
  | cons k rest ih =>
    intro buf _
    cases rest with
    | nil =>
      have hcond : ¬((buf ++ k).length <
          buf.length + sumLen [k] + ([k].length - 1)) := by
        simp [sumLen, List.length_append]
      rw [signedFieldsLoop_cons, if_neg hcond]
      simp [signedFieldsLoop, joinComma]
    | cons k2 rest2 =>
      have hcond : (buf ++ k).length <
          buf.length + sumLen (k :: k2 :: rest2) +
            ((k :: k2 :: rest2).length - 1) := by
        simp [sumLen, List.length_append]
        omega
      have heq : buf.length + sumLen (k :: k2 :: rest2) +
            ((k :: k2 :: rest2).length - 1)
          = (buf ++ k ++ [44]).length + sumLen (k2 :: rest2) +
            ((k2 :: rest2).length - 1) := by
        simp [sumLen, List.length_append]
        omega
      rw [signedFieldsLoop_cons, if_pos hcond, heq,
        ih (buf ++ k ++ [44]) (by simp)]
      simp [joinComma]

/-- The duplicate per-pair validation body coincides with `Form`'s. -/
theorem messageValidatePair_eq (k v : GoStr) :
    messageValidatePair k v = validatePair k v := rfl

/-- The duplicate validation loop coincides with `Form`'s. -/
theorem messageValidateEntries_eq (l : Entries) :
    messageValidateEntries l = validateEntries l := by
  induction l with
  | nil => rfl
  | cons p rest ih =>
    obtain ⟨k, v⟩ := p
    simp only [messageValidateEntries, validateEntries,
      messageValidatePair_eq, ih]

/-! ## Claims -/

/-- C3: `Validate` returns an error if and only if some (key, value) pair
violates a rule — empty value, invalid UTF-8 key or value, colon or
newline in the key, or whitespace at either end of key or value — and
succeeds when every pair satisfies all rules, in particular on the empty
mapping and on `{"foo":"bar"}`. -/
theorem Validate_error_iff_pairViolation :
    (∀ f : Form,
      ((Form.Validate f).isSome ↔
        ∃ p ∈ Form.entries f, pairViolation p.1 p.2) ∧
      (Form.Validate f = none ↔
        ∀ p ∈ Form.entries f, ¬ pairViolation p.1 p.2)) ∧
    Form.Validate (some []) = none ∧
    Form.Validate (some [(enc "foo", enc "bar")]) = none := by
  refine ⟨fun f => ?_, by decide, by decide⟩
  have hbase : Form.Validate f = validateEntries (Form.entries f) := by
    cases f <;> rfl
  have h2 : Form.Validate f = none ↔
      ∀ p ∈ Form.entries f, ¬ pairViolation p.1 p.2 := by
    rw [hbase, validateEntries_eq_none_iff]
    constructor
    · intro h p hp
      exact (validatePair_eq_none_iff_not_violation p.1 p.2).1 (h p hp)
    · intro h p hp
      exact (validatePair_eq_none_iff_not_violation p.1 p.2).2 (h p hp)
  refine ⟨?_, h2⟩
  rw [Option.isSome_iff_ne_none, Ne, h2]
  push_neg
  simp

/-- C4: `String` yields `""` on a nil or empty form; on any form it is the
concatenation of one `key:value\n` line per entry (the model's entry order
standing in for Go's unspecified map iteration order); in particular
`{"foo":"bar"}` serializes to `"foo:bar\n"`. -/
theorem String_is_lines_concat :
    Form.String none = [] ∧
    Form.String (some []) = [] ∧
    (∀ l : Entries,
      Form.String (some l)
        = (l.map (fun p => p.1 ++ 58 :: (p.2 ++ [10]))).flatten) ∧
    Form.String (some [(enc "foo", enc "bar")]) = enc "foo:bar\n" := by
  refine ⟨rfl, rfl, fun l => ?_, by decide⟩
  cases l with
  | nil => rfl
  | cons p rest =>
    have h1 : Form.String (some (p :: rest)) = ((p :: rest).map kvLine).flatten := by
      simp [Form.String]
    rw [h1]
    exact congrArg List.flatten (List.map_congr_left fun q _ => rfl)

/-- C5: `SignedFields` is the comma-join of the field names in list order,
with no leading or trailing separator, for arbitrary field names; the
empty list yields `""` and `["santa","foo"]` yields `"santa,foo"`. -/
theorem SignedFields_is_comma_join :
    (∀ s : SignedForm, SignedForm.SignedFields s = joinComma s.Fields) ∧
    SignedForm.SignedFields
      ⟨some [(enc "foo", enc "bar"), (enc "santa", enc "banta")],
       [enc "santa", enc "foo"]⟩ = enc "santa,foo" := by
  refine ⟨fun s => ?_, by decide⟩
  cases hf : s.Fields with
  | nil => simp [SignedForm.SignedFields, hf, joinComma]
  | cons k rest =>
    have h := signedFieldsLoop_eq_joinComma (k :: rest) [] (by simp)
    simp only [List.length_nil, Nat.zero_add, List.length_cons,
      Nat.add_sub_cancel, List.nil_append] at h
    simp [SignedForm.SignedFields, hf, h]

/-- C6: `Validate` does not reject an embedded (interior) colon or newline
in a value: a form whose pairs all satisfy the other rules passes
validation even when some value carries a colon or newline strictly in its
interior — only keys are checked for those characters. -/
theorem Validate_accepts_interior_separators_in_value
    (f : Form)
    (hok : ∀ p ∈ Form.entries f,
      p.2 ≠ [] ∧ validUtf8 p.1 = true ∧ validUtf8 p.2 = true ∧
      10 ∉ p.1 ∧ 58 ∉ p.1 ∧
      isSpace (decodeFirstRune p.1) = false ∧
      isSpace (decodeLastRune p.1) = false ∧
      isSpace (decodeFirstRune p.2) = false ∧
      isSpace (decodeLastRune p.2) = false)
    (hsep : ∃ p ∈ Form.entries f,
      58 ∈ p.2.dropLast.drop 1 ∨ 10 ∈ p.2.dropLast.drop 1) :
    Form.Validate f = none := by
  have hbase : Form.Validate f = validateEntries (Form.entries f) := by
    cases f <;> rfl
  rw [hbase, validateEntries_eq_none_iff]
  intro p hp
  have h := hok p hp
  rw [validatePair_eq_none_iff]
  tauto

/-- Witness for C6 at `{"mode": "a:b\nc"}`: the value has an interior
colon and an interior newline, every rule the validator does check holds,
and validation succeeds. -/
theorem Validate_accepts_interior_separators_in_value_witness :
    (∀ p ∈ Form.entries (some [(enc "mode", enc "a:b\nc")]),
      p.2 ≠ [] ∧ validUtf8 p.1 = true ∧ validUtf8 p.2 = true ∧
      10 ∉ p.1 ∧ 58 ∉ p.1 ∧
      isSpace (decodeFirstRune p.1) = false ∧
      isSpace (decodeLastRune p.1) = false ∧
      isSpace (decodeFirstRune p.2) = false ∧
      isSpace (decodeLastRune p.2) = false) ∧
    (∃ p ∈ Form.entries (some [(enc "mode", enc "a:b\nc")]),
      58 ∈ p.2.dropLast.drop 1 ∨ 10 ∈ p.2.dropLast.drop 1) ∧
    Form.Validate (some [(enc "mode", enc "a:b\nc")]) = none :=
  ⟨by decide, by decide,
    Validate_accepts_interior_separators_in_value
      (some [(enc "mode", enc "a:b\nc")]) (by decide) (by decide)⟩

/-- C7: `Get` returns `""` exactly when the key is absent or stored with
an empty value, and the stored value otherwise; equivalently it is lookup
with default `""`, so absence and stored-empty are indistinguishable. -/
theorem Get_lookup_with_default :
    ∀ (f : Form) (key : GoStr),
      Form.Get f key = (lookupEntries (Form.entries f) key).getD [] ∧
      (Form.Get f key = [] ↔
        lookupEntries (Form.entries f) key = none ∨
        lookupEntries (Form.entries f) key = some []) := by
  intro f key
  cases f with
  | none => exact ⟨rfl, by simp [Form.Get, Form.entries, lookupEntries]⟩
  | some l =>
    refine ⟨Form.Get_eq_getD l key, ?_⟩
    cases h : lookupEntries l key with
    | none => simp [Form.Get, Form.entries, h]
    | some v =>
      by_cases hv : v = [] <;>
        simp [Form.Get, Form.entries, h, hv]

/-- C10: `Validate` accepts an entry whose key is the empty string — the
empty key decodes to the replacement rune at both ends, which is not
whitespace, and breaks no other key rule — and `String` serializes that
entry as `:value\n`. -/
theorem Validate_accepts_empty_key
    (v : GoStr) (rest : Entries)
    (hv : v ≠ [] ∧ validUtf8 v = true ∧
      isSpace (decodeFirstRune v) = false ∧
      isSpace (decodeLastRune v) = false)
    (hrest : ∀ p ∈ rest, validatePair p.1 p.2 = none) :
    Form.Validate (some (([], v) :: rest)) = none ∧
    Form.String (some (([], v) :: rest))
      = (58 :: (v ++ [10])) ++ (rest.map kvLine).flatten := by
  constructor
  · show validateEntries (([], v) :: rest) = none
    rw [validateEntries_eq_none_iff]
    intro p hp
    rcases List.mem_cons.1 hp with h | h
    · have hgoal : validatePair [] v = none := by
        rw [validatePair_eq_none_iff]
        exact ⟨hv.1, by decide, hv.2.1, by simp, by simp,
          by decide, by decide, hv.2.2.2, hv.2.2.1⟩
      subst h
      exact hgoal
    · exact hrest p h
  · simp [Form.String, kvLine]

/-- Witness for C10 at the singleton `{"": "bar"}`: validation succeeds
and serialization yields `":bar\n"`. -/
theorem Validate_accepts_empty_key_witness :
    (enc "bar" ≠ [] ∧ validUtf8 (enc "bar") = true ∧
      isSpace (decodeFirstRune (enc "bar")) = false ∧
      isSpace (decodeLastRune (enc "bar")) = false) ∧
    (∀ p ∈ ([] : Entries), validatePair p.1 p.2 = none) ∧
    (Form.Validate (some [([], enc "bar")]) = none ∧
      Form.String (some [([], enc "bar")])
        = (58 :: (enc "bar" ++ [10])) ++ (([] : Entries).map kvLine).flatten) :=
  ⟨by decide, by decide,
    Validate_accepts_empty_key (enc "bar") [] (by decide) (by decide)⟩

/-- C1: when the backing form is non-empty and every listed field is
present with a non-empty value, `SignedString` is exactly the
concatenation, in the caller-supplied field-list order, of
`openid.` + name + `:` + value + `\n` for each listed field — never the
mapping's own iteration order. -/
theorem SignedString_fields_order
    (s : SignedForm) (l : Entries)
    (hform : s.form = some l) (hne : l ≠ [])
    (hall : ∀ k ∈ s.Fields,
      lookupEntries l k ≠ none ∧ lookupEntries l k ≠ some []) :
    SignedForm.SignedString s
      = (s.Fields.map
          (fun k => pfx ++ k ++ 58 :: ((lookupEntries l k).getD [] ++ [10]))).flatten := by
  have hchk : checkFields l s.Fields = true :=
    (checkFields_eq_true_iff l s.Fields).2 hall
  have hlen : ¬(l.length = 0) := by
    simpa [List.length_eq_zero] using hne
  unfold SignedForm.SignedString
  rw [hform]
  simp only [hchk, if_neg hlen, if_true]
  exact congrArg List.flatten
    (List.map_congr_left fun k _ => by rw [Form.Get_eq_getD])

/-- Witness for C1 at fields `["santa","foo"]` over
`{"foo":"bar","santa":"banta"}`: emission follows the list order, yielding
`"openid.santa:banta\nopenid.foo:bar\n"`. -/
theorem SignedString_fields_order_witness :
    (SignedForm.mk
        (some [(enc "foo", enc "bar"), (enc "santa", enc "banta")])
        [enc "santa", enc "foo"]).form
      = some [(enc "foo", enc "bar"), (enc "santa", enc "banta")] ∧
    ([(enc "foo", enc "bar"), (enc "santa", enc "banta")] : Entries) ≠ [] ∧
    (∀ k ∈ [enc "santa", enc "foo"],
      lookupEntries [(enc "foo", enc "bar"), (enc "santa", enc "banta")] k ≠ none ∧
      lookupEntries [(enc "foo", enc "bar"), (enc "santa", enc "banta")] k ≠ some []) ∧
    SignedForm.SignedString
        (SignedForm.mk
          (some [(enc "foo", enc "bar"), (enc "santa", enc "banta")])
          [enc "santa", enc "foo"])
      = enc "openid.santa:banta\nopenid.foo:bar\n" :=
  ⟨rfl, by decide, by decide,
    (SignedString_fields_order
      (SignedForm.mk
        (some [(enc "foo", enc "bar"), (enc "santa", enc "banta")])
        [enc "santa", enc "foo"])
      [(enc "foo", enc "bar"), (enc "santa", enc "banta")]
      rfl (by decide) (by decide)).trans (by decide)⟩

/-- C2: `SignedString` is all-or-nothing — a nil or empty backing form, or
any listed field absent or mapped to an empty value, yields `""`, never a
partial serialization. -/
theorem SignedString_all_or_nothing
    (s : SignedForm)
    (h : s.form = none ∨ s.form = some [] ∨
      ∃ k ∈ s.Fields,
        lookupEntries (Form.entries s.form) k = none ∨
        lookupEntries (Form.entries s.form) k = some []) :
    SignedForm.SignedString s = [] := by
  rcases h with h | h | h
  · unfold SignedForm.SignedString
    rw [h]
  · unfold SignedForm.SignedString
    rw [h]
    rfl
  · cases hf : s.form with
    | none =>
      unfold SignedForm.SignedString
      rw [hf]
    | some l =>
      by_cases hlen : l.length = 0
      · unfold SignedForm.SignedString
        rw [hf]
        simp [hlen]
      · have hchk : ¬(checkFields l s.Fields = true) := by
          rw [checkFields_eq_true_iff]
          intro hall
          simp only [hf, Form.entries] at h
          obtain ⟨k, hk, hbad⟩ := h
          have := hall k hk
          tauto
        have hchk2 : checkFields l s.Fields = false := by
          simpa using hchk
        unfold SignedForm.SignedString
        rw [hf]
        simp [hlen, hchk2]

/-- Witness for C2 at fields `["x"]` over `{"foo":"bar"}`: the listed
field is absent, so the whole serialization is `""`. -/
theorem SignedString_all_or_nothing_witness :
    ((SignedForm.mk (some [(enc "foo", enc "bar")]) [enc "x"]).form = none ∨
      (SignedForm.mk (some [(enc "foo", enc "bar")]) [enc "x"]).form = some [] ∨
      ∃ k ∈ [enc "x"],
        lookupEntries
          (Form.entries (SignedForm.mk (some [(enc "foo", enc "bar")]) [enc "x"]).form) k
          = none ∨
        lookupEntries
          (Form.entries (SignedForm.mk (some [(enc "foo", enc "bar")]) [enc "x"]).form) k
          = some []) ∧
    SignedForm.SignedString
        (SignedForm.mk (some [(enc "foo", enc "bar")]) [enc "x"]) = [] :=
  ⟨by decide,
    SignedString_all_or_nothing
      (SignedForm.mk (some [(enc "foo", enc "bar")]) [enc "x"]) (by decide)⟩

/-- C8 counterexample: `Set` on a nil `Form` panics (Go's
"assignment to entry in nil map"), so the claim that none of `Get`, `Set`,
`Del` ever panics, including on a nil Form, fails at this input. -/
theorem Set_on_nil_panics :
    Form.Set none (enc "foo") (enc "bar") = GoResult.panic := rfl

/-- C8 as amended: `Get` is total, `Del` never fails on any `Form`
(including nil, where it is a no-op, and absent keys, where it leaves the
entries untouched), and `Set` on any non-nil `Form` inserts or overwrites
without failing; only `Set` on a nil `Form` panics. -/
theorem mutators_total_except_set_on_nil
    (f : Form) (l : Entries) (key value : GoStr)
    (hnd : (l.map Prod.fst).Nodup) :
    Form.Set (some l) key value
      = GoResult.ok (some (setEntries l key value)) ∧
    lookupEntries (setEntries l key value) key = some value ∧
    Form.Set none key value = GoResult.panic ∧
    Form.Del (some l) key = some (eraseEntries l key) ∧
    lookupEntries (eraseEntries l key) key = none ∧
    (lookupEntries l key = none → eraseEntries l key = l) ∧
    Form.Del none key = none ∧
    (∃ out : GoStr, Form.Get f key = out) :=
  ⟨rfl, lookupEntries_setEntries_self l key value, rfl, rfl,
    lookupEntries_eraseEntries_self l key hnd,
    eraseEntries_of_lookup_none l key, rfl, ⟨Form.Get f key, rfl⟩⟩

/-- Witness for the amended C8 at `{"a":"b"}` with key `"zz"` and value
`"w"`. -/
theorem mutators_total_except_set_on_nil_witness :
    (([(enc "a", enc "b")].map Prod.fst).Nodup) ∧
    (Form.Set (some [(enc "a", enc "b")]) (enc "zz") (enc "w")
        = GoResult.ok (some (setEntries [(enc "a", enc "b")] (enc "zz") (enc "w"))) ∧
      lookupEntries (setEntries [(enc "a", enc "b")] (enc "zz") (enc "w")) (enc "zz")
        = some (enc "w") ∧
      Form.Set none (enc "zz") (enc "w") = GoResult.panic ∧
      Form.Del (some [(enc "a", enc "b")]) (enc "zz")
        = some (eraseEntries [(enc "a", enc "b")] (enc "zz")) ∧
      lookupEntries (eraseEntries [(enc "a", enc "b")] (enc "zz")) (enc "zz") = none ∧
      (lookupEntries [(enc "a", enc "b")] (enc "zz") = none →
        eraseEntries [(enc "a", enc "b")] (enc "zz") = [(enc "a", enc "b")]) ∧
      Form.Del none (enc "zz") = none ∧
      (∃ out : GoStr, Form.Get (some []) (enc "zz") = out)) :=
  ⟨by decide,
    mutators_total_except_set_on_nil (some []) [(enc "a", enc "b")]
      (enc "zz") (enc "w") (by decide)⟩

/-- C9: the duplicate `Message` type behaves identically to `Form` on
every mapping: `Validate` succeeds and fails under the same conditions
with the same first error, `String` produces the same bytes, and `Get`,
`Set`, `Del` agree on every input. -/
theorem Message_behaves_as_Form :
    ∀ (m : Option Entries) (key value : GoStr),
      Message.Validate m = Form.Validate m ∧
      Message.String m = Form.String m ∧
      Message.Get m key = Form.Get m key ∧
      Message.Set m key value = Form.Set m key value ∧
      Message.Del m key = Form.Del m key := by
  intro m key value
  refine ⟨?_, ?_, ?_, ?_, ?_⟩
  · cases m with
    | none => rfl
    | some l => exact messageValidateEntries_eq l
  · cases m <;> rfl
  · cases m <;> rfl
  · cases m <;> rfl
  · cases m <;> rfl
